import Mathlib

/-!
Verification of the `cspretty` CSP pretty-printer (`src/main.rs`).

Strings are modelled as `List Char`.  Rust's `str::to_lowercase`,
`char::is_whitespace` and the regex class `\w` are modelled by their ASCII
behaviour (`Char.toLower`, `Char.isWhitespace`, alphanumeric-or-underscore),
which coincides with the Rust semantics on ASCII input.  Terminal colouring
(the `colored` crate) is modelled with styling disabled, where every style
function is the identity on the text.
-/

set_option maxRecDepth 4000

/-- Model of `str::to_lowercase` (ASCII). -/
def toLowerL (l : List Char) : List Char := l.map Char.toLower

/-- Worker for `splitOnL`, structurally recursive on a fuel argument so
that the kernel can evaluate it; the fuel is always at least the length
of the list being split. -/
def splitOnFuel (sep : List Char) : Nat → List Char → List (List Char)
  | _, [] => [[]]
  | 0, l => [l]
  | fuel + 1, c :: rest =>
    if sep ≠ [] ∧ sep.isPrefixOf (c :: rest) then
      [] :: splitOnFuel sep fuel (List.drop (sep.length - 1) rest)
    else
      match splitOnFuel sep fuel rest with
      | [] => [[c]]
      | f :: fs => (c :: f) :: fs

/-- Model of Rust `str::split(sep)` for a non-empty literal separator:
splits on the non-overlapping leftmost occurrences of `sep`, returning
the fields (possibly empty) in order. -/
def splitOnL (sep l : List Char) : List (List Char) :=
  splitOnFuel sep l.length l

/-- Accumulator-based worker for `splitWsL`; `acc` holds the current word,
reversed. -/
def splitWsGo : List Char → List Char → List (List Char)
  | [], acc => if acc = [] then [] else [acc.reverse]
  | c :: rest, acc =>
    if c.isWhitespace then
      if acc = [] then splitWsGo rest [] else acc.reverse :: splitWsGo rest []
    else
      splitWsGo rest (c :: acc)

/-- Model of Rust `str::split_whitespace`: splits on runs of whitespace,
yielding the non-empty words in order. -/
def splitWsL (l : List Char) : List (List Char) := splitWsGo l []

/-- Model of Rust `[String]::join(sep)`. -/
def joinSep (sep : List Char) : List (List Char) → List Char
  | [] => []
  | [x] => x
  | x :: y :: rest => x ++ sep ++ joinSep sep (y :: rest)

/-! ## Regular expressions

A small regex engine with character-class atoms, by Brzozowski derivatives,
embedding `regex::Regex::is_match` (unanchored substring search). -/

/-- Regular expressions over `Char` with character-class atoms. -/
inductive Re where
  | emp : Re
  | eps : Re
  | cls : (Char → Bool) → Re
  | alt : Re → Re → Re
  | cat : Re → Re → Re
  | star : Re → Re

/-- Does the regex accept the empty string? -/
def Re.matchEps : Re → Bool
  | .emp => false
  | .eps => true
  | .cls _ => false
  | .alt P Q => P.matchEps || Q.matchEps
  | .cat P Q => P.matchEps && Q.matchEps
  | .star _ => true

/-- Brzozowski derivative of a regex by one character. -/
def Re.deriv : Re → Char → Re
  | .emp, _ => .emp
  | .eps, _ => .emp
  | .cls p, a => if p a then .eps else .emp
  | .alt P Q, a => .alt (P.deriv a) (Q.deriv a)
  | .cat P Q, a =>
    if P.matchEps then .alt (.cat (P.deriv a) Q) (Q.deriv a)
    else .cat (P.deriv a) Q
  | .star P, a => .cat (P.deriv a) (.star P)

/-- Anchored (whole-string) regex matching by repeated derivatives. -/
def Re.rmatch : Re → List Char → Bool
  | P, [] => P.matchEps
  | P, a :: as => (P.deriv a).rmatch as

/-- The class matching any character (regex `.` with the `s` flag). -/
def anyCls : Re := Re.cls (fun _ => true)

/-- Wraps a regex for unanchored search: a match anywhere in the string. -/
def searchRe (r : Re) : Re := Re.cat (Re.star anyCls) (Re.cat r (Re.star anyCls))

/-- Model of `regex::Regex::is_match`: unanchored substring search. -/
def Re.isMatch (r : Re) (l : List Char) : Bool := (searchRe r).rmatch l

/-- Model of the regex class `\w` (ASCII): alphanumeric or underscore. -/
def wordChar (c : Char) : Bool := c.isAlphanum || c == '_'

/-- Regex matching exactly one given character. -/
def rchar (c : Char) : Re := Re.cls (fun d => d == c)

/-- Regex matching exactly a given literal string. -/
def rstr (s : List Char) : Re := s.foldr (fun c r => Re.cat (rchar c) r) Re.eps

/-- Regex `r?`. -/
def ropt (r : Re) : Re := Re.alt r Re.eps

/-- Regex `r+`. -/
def rplus (r : Re) : Re := Re.cat r (Re.star r)

/-- The scheme part `(https?://)?` of the host pattern. -/
def schemeRe : Re :=
  ropt (Re.cat (rstr "http".data) (Re.cat (ropt (rchar 's')) (rstr "://".data)))

/-- The regex `(https?://)?(\w+\.)+(\w)+` from `Value::is_url`. -/
def hostRe : Re :=
  Re.cat schemeRe
    (Re.cat (rplus (Re.cat (rplus (Re.cls wordChar)) (rchar '.')))
      (rplus (Re.cls wordChar)))

/-! ## The program -/

/-- The `ValueType` enum from the source. -/
inductive ValueType where
  | Error : ValueType
  | Safe : ValueType
  | UnSafe : ValueType
  | Plain : ValueType
  deriving DecidableEq, Repr

/-- The `Value` struct: a token's text together with its classification. -/
structure Value where
  text : List Char
  value_type : ValueType
  deriving DecidableEq, Repr

/-- `Value::is_url`: unanchored search for `(https?://)?(\w+\.)+(\w)+`. -/
def is_url (value : List Char) : Bool := hostRe.isMatch value

/-- `Value::classify`: the token classifier. -/
def classify (value : List Char) : ValueType :=
  if value = "'self'".data then .Safe
  else if value = "'none'".data then .Safe
  else if value = "'unsafe-inline'".data then .UnSafe
  else if value = "'unsafe-eval'".data then .UnSafe
  else if value = "data:".data then .UnSafe
  else if is_url value then .Plain
  else .Error

/-- `Value::from`: pair a token with its classification. -/
def Value.ofText (text : List Char) : Value := ⟨text, classify text⟩

/-- `Value::pretty` with styling disabled: the text itself. -/
def Value.pretty (v : Value) : List Char := v.text

/-- The `Row` struct: a directive name and its classified values. -/
structure Row where
  key : List Char
  values : List Value
  deriving DecidableEq, Repr

/-- `Row::from`: split a segment on whitespace; fewer than two words yield
no row, otherwise the first word is the key and the rest are classified. -/
def Row.fromLine (line : List Char) : Option Row :=
  match splitWsL line with
  | key :: v :: vs => some ⟨key, (v :: vs).map Value.ofText⟩
  | _ => none

/-- `Row::to_colored_string` with styling disabled. -/
def Row.to_colored_string (r : Row) (separator : List Char) : List Char :=
  r.key ++ separator ++ joinSep separator (r.values.map Value.pretty)

/-- The row-joining part of `pretty_print`: render each row and join the
results with `";\n"`. -/
def renderRows (rows : List Row) (separator : List Char) : List Char :=
  joinSep ";\n".data (rows.map (fun r => r.to_colored_string separator))

/-- `pretty_print`: split the input on `;`, parse each segment into a row
(dropping segments with fewer than two words), render. -/
def pretty_print (input : List Char) (multi_line : Bool) : List Char :=
  let separator := if multi_line then "\n\t".data else " ".data
  renderRows ((splitOnL [';'] input).filterMap Row.fromLine) separator

/-- The header needle searched for by `handle_line`. -/
def headerNeedle : List Char := "content-security-policy:".data

/-- `handle_line`: lower-case the line, take the second field of splitting
on the header needle if it exists, and pretty-print it (else the original
line). -/
def handle_line (input : List Char) (multi_line : Bool) : List Char :=
  let normalised_input := toLowerL input
  match (splitOnL headerNeedle normalised_input)[1]? with
  | none => pretty_print input multi_line
  | some value => pretty_print value multi_line

/-- The `main` loop: process each input line independently, in order. -/
def main_loop (lines : List (List Char)) (multiline : Bool) : List (List Char) :=
  lines.map (fun l => handle_line l multiline)

/-! ## Spec-side definitions

These follow the wording of the specification, for comparison with the
definitions translated from the source. -/

/-- Spec-side description of `(https?://)?(\w+\.)+(\w)+`: one or more word
characters. -/
def WordGroup (w : List Char) : Prop := w ≠ [] ∧ ∀ c ∈ w, wordChar c = true

/-- The optional scheme: empty, `http://`, or `https://`. -/
def SchemeOpt (s : List Char) : Prop :=
  s = [] ∨ s = "http://".data ∨ s = "https://".data

/-- Membership in the host pattern language: an optional scheme, then one or
more groups of word characters each followed by a dot, then a final group of
word characters. -/
def HostPatternMatch (m : List Char) : Prop :=
  ∃ (scheme : List Char) (groups : List (List Char)) (tail : List Char),
    m = scheme ++ (groups.map (fun w => w ++ ['.'])).flatten ++ tail ∧
    SchemeOpt scheme ∧ groups ≠ [] ∧ (∀ w ∈ groups, WordGroup w) ∧ WordGroup tail

/-- The string contains, as an unanchored substring, a match of the host
pattern. -/
def ContainsHostMatch (s : List Char) : Prop :=
  ∃ pre mid post, s = pre ++ mid ++ post ∧ HostPatternMatch mid

/-- Spec-side row rendering: the name, then each value preceded by the
separator. -/
def specRowRender (r : Row) (sep : List Char) : List Char :=
  r.key ++ (r.values.map (fun v => sep ++ v.text)).flatten

/-- Spec-side renderer: rows rendered and joined with semicolon-newline,
independent of the multiline flag. -/
def specRender (rows : List Row) (multiline : Bool) : List Char :=
  joinSep ";\n".data
    (rows.map (fun r => specRowRender r (if multiline then "\n\t".data else " ".data)))

/-! ## Correctness of the derivative matcher -/

theorem Re.emp_rmatch (x : List Char) : Re.emp.rmatch x = false := by
  induction x with
  | nil => rfl
  | cons a as ih => simpa [Re.rmatch, Re.deriv] using ih

theorem Re.eps_rmatch_iff (x : List Char) : Re.eps.rmatch x = true ↔ x = [] := by
  cases x with
  | nil => simp [Re.rmatch, Re.matchEps]
  | cons a as => simp [Re.rmatch, Re.deriv, Re.emp_rmatch]

theorem Re.cls_rmatch_iff (p : Char → Bool) (x : List Char) :
    (Re.cls p).rmatch x = true ↔ ∃ c, x = [c] ∧ p c = true := by
  cases x with
  | nil => simp [Re.rmatch, Re.matchEps]
  | cons a as =>
    cases hpa : p a with
    | true =>
      simp only [Re.rmatch, Re.deriv, hpa, if_true, Re.eps_rmatch_iff]
      constructor
      · rintro rfl; exact ⟨a, rfl, hpa⟩
      · rintro ⟨c, hc, hpc⟩
        simp only [List.cons.injEq] at hc
        exact hc.2
    | false =>
      simp only [Re.rmatch, Re.deriv, hpa]
      simp only [Bool.false_eq_true, if_false, Re.emp_rmatch]
      constructor
      · intro hfalse; exact absurd hfalse (by simp)
      · rintro ⟨c, hc, hpc⟩
        simp only [List.cons.injEq] at hc
        rw [← hc.1] at hpc
        rw [hpa] at hpc
        exact absurd hpc (by simp)

theorem Re.alt_rmatch_iff (P Q : Re) (x : List Char) :
    (Re.alt P Q).rmatch x = true ↔ P.rmatch x = true ∨ Q.rmatch x = true := by
  induction x generalizing P Q with
  | nil => simp [Re.rmatch, Re.matchEps]
  | cons a as ih => simpa [Re.rmatch, Re.deriv] using ih (P.deriv a) (Q.deriv a)

theorem Re.cat_rmatch_iff (P Q : Re) (x : List Char) :
    (Re.cat P Q).rmatch x = true ↔
      ∃ t u, x = t ++ u ∧ P.rmatch t = true ∧ Q.rmatch u = true := by
  induction x generalizing P Q with
  | nil =>
    simp only [Re.rmatch, Re.matchEps, Bool.and_eq_true]
    constructor
    · rintro ⟨hP, hQ⟩
      exact ⟨[], [], rfl, hP, hQ⟩
    · rintro ⟨t, u, htu, hP, hQ⟩
      rcases List.append_eq_nil.mp htu.symm with ⟨ht, hu⟩
      subst ht; subst hu
      exact ⟨hP, hQ⟩
  | cons a as ih =>
    simp only [Re.rmatch]
    by_cases hP : P.matchEps = true
    · rw [Re.deriv, if_pos hP]
      rw [Re.alt_rmatch_iff, ih]
      constructor
      · rintro (⟨t, u, htu, hPt, hQu⟩ | hQ)
        · exact ⟨a :: t, u, by simp [htu], by simpa [Re.rmatch] using hPt, hQu⟩
        · exact ⟨[], a :: as, rfl, hP, by simpa [Re.rmatch] using hQ⟩
      · rintro ⟨t, u, htu, hPt, hQu⟩
        cases t with
        | nil =>
          right
          simp only [List.nil_append] at htu
          rw [← htu] at hQu
          simpa [Re.rmatch] using hQu
        | cons b t =>
          left
          simp only [List.cons_append, List.cons.injEq] at htu
          refine ⟨t, u, htu.2, ?_, hQu⟩
          rw [htu.1]
          simpa [Re.rmatch] using hPt
    · rw [Re.deriv, if_neg hP]
      rw [ih]
      constructor
      · rintro ⟨t, u, htu, hPt, hQu⟩
        exact ⟨a :: t, u, by simp [htu], by simpa [Re.rmatch] using hPt, hQu⟩
      · rintro ⟨t, u, htu, hPt, hQu⟩
        cases t with
        | nil =>
          simp only [Re.rmatch] at hPt
          exact absurd hPt hP
        | cons b t =>
          simp only [List.cons_append, List.cons.injEq] at htu
          refine ⟨t, u, htu.2, ?_, hQu⟩
          rw [htu.1]
          simpa [Re.rmatch] using hPt

theorem Re.star_rmatch_iff (P : Re) :
    ∀ x : List Char, (Re.star P).rmatch x = true ↔
      ∃ S : List (List Char), x = S.flatten ∧ ∀ t ∈ S, t ≠ [] ∧ P.rmatch t = true :=
  fun x => by
  have IH := fun t (_ : List.length t < List.length x) => Re.star_rmatch_iff P t
  constructor
  · cases x with
    | nil => intro _; exact ⟨[], rfl, by simp⟩
    | cons a as =>
      simp only [Re.rmatch, Re.deriv, Re.cat_rmatch_iff]
      rintro ⟨t, u, htu, hPt, hSu⟩
      have hulen : u.length < (a :: as).length := by
        simp only [htu, List.length_cons, List.length_append]; omega
      rcases (IH u hulen).mp hSu with ⟨S, hflat, hmem⟩
      refine ⟨(a :: t) :: S,
        by simp only [List.flatten_cons, List.cons_append, ← hflat, htu], ?_⟩
      intro t' ht'
      rcases List.mem_cons.mp ht' with rfl | ht''
      · refine ⟨by simp, ?_⟩
        simp only [Re.rmatch]
        exact hPt
      · exact hmem t' ht''
  · rintro ⟨S, hflat, hmem⟩
    cases x with
    | nil => rfl
    | cons a as =>
      simp only [Re.rmatch, Re.deriv, Re.cat_rmatch_iff]
      cases S with
      | nil => simp at hflat
      | cons t' U =>
        cases t' with
        | nil => exact absurd rfl (hmem [] (by simp)).1
        | cons b t =>
          simp only [List.flatten_cons, List.cons_append, List.cons.injEq] at hflat
          refine ⟨t, U.flatten, hflat.2, ?_, ?_⟩
          · have hbt := (hmem (b :: t) (by simp)).2
            simp only [Re.rmatch] at hbt
            rw [hflat.1]
            exact hbt
          · have hlen : U.flatten.length < (a :: as).length := by
              rw [hflat.2]
              simp only [List.length_cons, List.length_append]
              omega
            exact (IH U.flatten hlen).mpr ⟨U, rfl, fun s hs => hmem s (by simp [hs])⟩
  termination_by x => x.length

theorem anyStar_rmatch (x : List Char) : (Re.star anyCls).rmatch x = true := by
  induction x with
  | nil => rfl
  | cons a as ih =>
    simp only [Re.rmatch, Re.deriv, Re.cat_rmatch_iff]
    exact ⟨[], as, rfl, by simp [anyCls, Re.deriv, Re.rmatch, Re.matchEps], ih⟩

theorem Re.isMatch_iff (r : Re) (x : List Char) :
    r.isMatch x = true ↔
      ∃ pre mid post, x = pre ++ mid ++ post ∧ r.rmatch mid = true := by
  simp only [Re.isMatch, searchRe, Re.cat_rmatch_iff]
  constructor
  · rintro ⟨t, u, htu, -, mid, post, hmp, hmid, -⟩
    exact ⟨t, mid, post, by simp [htu, hmp], hmid⟩
  · rintro ⟨pre, mid, post, hx, hmid⟩
    exact ⟨pre, mid ++ post, by simp [hx], anyStar_rmatch pre,
      mid, post, rfl, hmid, anyStar_rmatch post⟩

/-! ## The host pattern language -/

theorem rchar_rmatch_iff (c : Char) (x : List Char) :
    (rchar c).rmatch x = true ↔ x = [c] := by
  simp only [rchar, Re.cls_rmatch_iff]
  constructor
  · rintro ⟨d, rfl, hd⟩
    rw [beq_iff_eq] at hd
    rw [hd]
  · rintro rfl
    exact ⟨c, rfl, by simp⟩

theorem rstr_rmatch_iff (s x : List Char) : (rstr s).rmatch x = true ↔ x = s := by
  induction s generalizing x with
  | nil => simpa [rstr] using Re.eps_rmatch_iff x
  | cons c s' ih =>
    simp only [rstr, List.foldr_cons] at *
    rw [Re.cat_rmatch_iff]
    constructor
    · rintro ⟨t, u, rfl, ht, hu⟩
      rw [rchar_rmatch_iff] at ht
      rw [ih] at hu
      rw [ht, hu]
      rfl
    · rintro rfl
      exact ⟨[c], s', rfl, (rchar_rmatch_iff c [c]).mpr rfl, (ih s').mpr rfl⟩

theorem ropt_rmatch_iff (r : Re) (x : List Char) :
    (ropt r).rmatch x = true ↔ r.rmatch x = true ∨ x = [] := by
  rw [ropt, Re.alt_rmatch_iff, Re.eps_rmatch_iff]

theorem flatten_cls_chars (p : Char → Bool) :
    ∀ S : List (List Char), (∀ t ∈ S, ∃ c, t = [c] ∧ p c = true) →
      ∀ c ∈ S.flatten, p c = true := by
  intro S
  induction S with
  | nil => intro _ c hc; simp at hc
  | cons t S' ih =>
    intro hS c hc
    rw [List.flatten_cons, List.mem_append] at hc
    rcases hc with hc | hc
    · rcases hS t (by simp) with ⟨d, rfl, hd⟩
      rw [List.mem_singleton] at hc
      rw [hc]; exact hd
    · exact ih (fun u hu => hS u (by simp [hu])) c hc

theorem flatten_map_singleton (l : List Char) :
    (l.map (fun d => [d])).flatten = l := by
  induction l with
  | nil => rfl
  | cons c l' ih => simp [ih]

theorem rplus_cls_rmatch_iff (p : Char → Bool) (x : List Char) :
    (rplus (Re.cls p)).rmatch x = true ↔ x ≠ [] ∧ ∀ c ∈ x, p c = true := by
  rw [rplus, Re.cat_rmatch_iff]
  constructor
  · rintro ⟨t, u, rfl, ht, hu⟩
    rw [Re.cls_rmatch_iff] at ht
    rcases ht with ⟨c, rfl, hc⟩
    rw [Re.star_rmatch_iff] at hu
    rcases hu with ⟨S, rfl, hS⟩
    refine ⟨by simp, ?_⟩
    intro d hd
    rw [List.cons_append, List.mem_cons] at hd
    rcases hd with rfl | hd
    · exact hc
    · rw [List.nil_append] at hd
      refine flatten_cls_chars p S ?_ d hd
      intro t ht
      exact (Re.cls_rmatch_iff p t).mp (hS t ht).2
  · rintro ⟨hne, hall⟩
    cases x with
    | nil => exact absurd rfl hne
    | cons c rest =>
      refine ⟨[c], rest, rfl, ?_, ?_⟩
      · exact (Re.cls_rmatch_iff p [c]).mpr ⟨c, rfl, hall c (by simp)⟩
      · rw [Re.star_rmatch_iff]
        refine ⟨rest.map (fun d => [d]), (flatten_map_singleton rest).symm, ?_⟩
        intro t ht
        rw [List.mem_map] at ht
        rcases ht with ⟨d, hd, rfl⟩
        exact ⟨by simp, (Re.cls_rmatch_iff p [d]).mpr ⟨d, rfl, hall d (by simp [hd])⟩⟩

theorem group_rmatch_iff (x : List Char) :
    (Re.cat (rplus (Re.cls wordChar)) (rchar '.')).rmatch x = true ↔
      ∃ w, WordGroup w ∧ x = w ++ ['.'] := by
  rw [Re.cat_rmatch_iff]
  constructor
  · rintro ⟨t, u, rfl, ht, hu⟩
    rw [rplus_cls_rmatch_iff] at ht
    rw [rchar_rmatch_iff] at hu
    exact ⟨t, ht, by rw [hu]⟩
  · rintro ⟨w, hw, rfl⟩
    exact ⟨w, ['.'], rfl, (rplus_cls_rmatch_iff wordChar w).mpr hw,
      (rchar_rmatch_iff '.' ['.']).mpr rfl⟩

theorem exists_groups_of_chunks :
    ∀ S : List (List Char), (∀ t ∈ S, ∃ w, WordGroup w ∧ t = w ++ ['.']) →
      ∃ gs : List (List Char), S = gs.map (fun w => w ++ ['.']) ∧
        ∀ w ∈ gs, WordGroup w := by
  intro S
  induction S with
  | nil => intro _; exact ⟨[], rfl, by simp⟩
  | cons t S' ih =>
    intro hS
    rcases hS t (by simp) with ⟨w, hw, rfl⟩
    rcases ih (fun u hu => hS u (by simp [hu])) with ⟨gs, rfl, hgs⟩
    refine ⟨w :: gs, by simp, ?_⟩
    intro w' hw'
    rcases List.mem_cons.mp hw' with rfl | hw'
    · exact hw
    · exact hgs w' hw'

theorem groups_rmatch_iff (x : List Char) :
    (rplus (Re.cat (rplus (Re.cls wordChar)) (rchar '.'))).rmatch x = true ↔
      ∃ gs : List (List Char), gs ≠ [] ∧
        x = (gs.map (fun w => w ++ ['.'])).flatten ∧ ∀ w ∈ gs, WordGroup w := by
  rw [rplus, Re.cat_rmatch_iff]
  constructor
  · rintro ⟨t, u, rfl, ht, hu⟩
    rcases (group_rmatch_iff t).mp ht with ⟨w0, hw0, rfl⟩
    rw [Re.star_rmatch_iff] at hu
    rcases hu with ⟨S, rfl, hS⟩
    rcases exists_groups_of_chunks S
        (fun s hs => (group_rmatch_iff s).mp (hS s hs).2) with ⟨gs, rfl, hgs⟩
    refine ⟨w0 :: gs, by simp, by simp, ?_⟩
    intro w hw
    rcases List.mem_cons.mp hw with rfl | hw
    · exact hw0
    · exact hgs w hw
  · rintro ⟨gs, hne, rfl, hgs⟩
    cases gs with
    | nil => exact absurd rfl hne
    | cons w0 gs' =>
      refine ⟨w0 ++ ['.'], (gs'.map (fun w => w ++ ['.'])).flatten, by simp, ?_, ?_⟩
      · exact (group_rmatch_iff _).mpr ⟨w0, hgs w0 (by simp), rfl⟩
      · rw [Re.star_rmatch_iff]
        refine ⟨gs'.map (fun w => w ++ ['.']), rfl, ?_⟩
        intro t ht
        rcases List.mem_map.mp ht with ⟨w, hw, rfl⟩
        exact ⟨by simp, (group_rmatch_iff _).mpr ⟨w, hgs w (by simp [hw]), rfl⟩⟩

theorem scheme_rmatch_iff (x : List Char) :
    schemeRe.rmatch x = true ↔ SchemeOpt x := by
  rw [schemeRe, ropt_rmatch_iff, Re.cat_rmatch_iff]
  constructor
  · rintro (⟨t, u, rfl, ht, hu⟩ | rfl)
    · rw [rstr_rmatch_iff] at ht
      rw [Re.cat_rmatch_iff] at hu
      rcases hu with ⟨v, z, rfl, hv, hz⟩
      rw [ropt_rmatch_iff, rchar_rmatch_iff] at hv
      rw [rstr_rmatch_iff] at hz
      subst ht; subst hz
      rcases hv with rfl | rfl
      · right; right; rfl
      · right; left; rfl
    · left; rfl
  · rintro (rfl | rfl | rfl)
    · right; rfl
    · left
      refine ⟨"http".data, "://".data, rfl, (rstr_rmatch_iff _ _).mpr rfl, ?_⟩
      exact (Re.cat_rmatch_iff _ _ _).mpr
        ⟨[], "://".data, rfl, (ropt_rmatch_iff _ _).mpr (Or.inr rfl),
          (rstr_rmatch_iff _ _).mpr rfl⟩
    · left
      refine ⟨"http".data, "s://".data, rfl, (rstr_rmatch_iff _ _).mpr rfl, ?_⟩
      exact (Re.cat_rmatch_iff _ _ _).mpr
        ⟨['s'], "://".data, rfl,
          (ropt_rmatch_iff _ _).mpr (Or.inl ((rchar_rmatch_iff _ _).mpr rfl)),
          (rstr_rmatch_iff _ _).mpr rfl⟩

theorem host_rmatch_iff (m : List Char) :
    hostRe.rmatch m = true ↔ HostPatternMatch m := by
  rw [hostRe, Re.cat_rmatch_iff]
  constructor
  · rintro ⟨s, u, rfl, hs, hu⟩
    rw [Re.cat_rmatch_iff] at hu
    rcases hu with ⟨g, t, rfl, hg, ht⟩
    rcases (groups_rmatch_iff g).mp hg with ⟨gs, hne, rfl, hgs⟩
    refine ⟨s, gs, t, by rw [List.append_assoc], (scheme_rmatch_iff s).mp hs,
      hne, hgs, ?_⟩
    exact (rplus_cls_rmatch_iff wordChar t).mp ht
  · rintro ⟨scheme, gs, tail, rfl, hs, hne, hgs, htail⟩
    refine ⟨scheme, (gs.map (fun w => w ++ ['.'])).flatten ++ tail,
      by rw [List.append_assoc], (scheme_rmatch_iff scheme).mpr hs, ?_⟩
    rw [Re.cat_rmatch_iff]
    exact ⟨(gs.map (fun w => w ++ ['.'])).flatten, tail, rfl,
      (groups_rmatch_iff _).mpr ⟨gs, hne, rfl, hgs⟩,
      (rplus_cls_rmatch_iff wordChar tail).mpr htail⟩

theorem is_url_iff_contains (s : List Char) :
    is_url s = true ↔ ContainsHostMatch s := by
  rw [is_url, Re.isMatch_iff]
  constructor
  · rintro ⟨pre, mid, post, rfl, hmid⟩
    exact ⟨pre, mid, post, rfl, (host_rmatch_iff mid).mp hmid⟩
  · rintro ⟨pre, mid, post, rfl, hmid⟩
    exact ⟨pre, mid, post, rfl, (host_rmatch_iff mid).mpr hmid⟩

/-! ## Properties of the string utilities -/

theorem char_toNat_ofNat {m : Nat} (h : m < 55296) : (Char.ofNat m).toNat = m := by
  rw [Char.ofNat, dif_pos (Or.inl h)]
  rfl

theorem toLower_idem (c : Char) : c.toLower.toLower = c.toLower := by
  unfold Char.toLower
  by_cases h : c.toNat ≥ 65 ∧ c.toNat ≤ 90
  · rw [if_pos h]
    have h32 : (Char.ofNat (c.toNat + 32)).toNat = c.toNat + 32 :=
      char_toNat_ofNat (by omega)
    rw [if_neg]
    rw [h32]
    omega
  · rw [if_neg h, if_neg h]

theorem toLowerL_idem (l : List Char) : toLowerL (toLowerL l) = toLowerL l := by
  induction l with
  | nil => rfl
  | cons c l ih =>
    simp only [toLowerL, List.map_cons] at *
    rw [toLower_idem]
    rw [ih]

theorem splitWsGo_words (l : List Char) : ∀ acc : List Char,
    (∀ c ∈ acc, c.isWhitespace = false) →
    ∀ w ∈ splitWsGo l acc, w ≠ [] ∧ ∀ c ∈ w, c.isWhitespace = false := by
  induction l with
  | nil =>
    intro acc hacc w hw
    simp only [splitWsGo] at hw
    by_cases h : acc = []
    · rw [if_pos h] at hw; simp at hw
    · rw [if_neg h] at hw
      rcases List.mem_singleton.mp hw with rfl
      exact ⟨by simpa using h, fun c hc => hacc c (List.mem_reverse.mp hc)⟩
  | cons c rest ih =>
    intro acc hacc w hw
    simp only [splitWsGo] at hw
    by_cases hws : c.isWhitespace = true
    · rw [if_pos hws] at hw
      by_cases h : acc = []
      · rw [if_pos h] at hw
        exact ih [] (by simp) w hw
      · rw [if_neg h] at hw
        rcases List.mem_cons.mp hw with rfl | hw'
        · exact ⟨by simpa using h, fun d hd => hacc d (List.mem_reverse.mp hd)⟩
        · exact ih [] (by simp) w hw'
    · rw [if_neg hws] at hw
      rw [Bool.not_eq_true] at hws
      refine ih (c :: acc) ?_ w hw
      intro d hd
      rcases List.mem_cons.mp hd with rfl | hd
      · exact hws
      · exact hacc d hd

theorem splitWsL_words (l : List Char) :
    ∀ w ∈ splitWsL l, w ≠ [] ∧ ∀ c ∈ w, c.isWhitespace = false :=
  splitWsGo_words l [] (by simp)

theorem splitWsGo_flatten (l : List Char) : ∀ acc : List Char,
    (splitWsGo l acc).flatten = acc.reverse ++ l.filter (fun c => !c.isWhitespace) := by
  induction l with
  | nil =>
    intro acc
    simp only [splitWsGo, List.filter_nil, List.append_nil]
    by_cases h : acc = []
    · rw [if_pos h, h]; rfl
    · rw [if_neg h]; simp
  | cons c rest ih =>
    intro acc
    simp only [splitWsGo]
    by_cases hws : c.isWhitespace = true
    · rw [if_pos hws]
      have hfilter : (c :: rest).filter (fun d => !d.isWhitespace)
          = rest.filter (fun d => !d.isWhitespace) := by
        simp [List.filter_cons, hws]
      by_cases h : acc = []
      · rw [if_pos h, ih [], h, hfilter]
      · rw [if_neg h]
        simp only [List.flatten_cons, ih [], List.reverse_nil, List.nil_append, hfilter]
    · rw [if_neg hws]
      rw [Bool.not_eq_true] at hws
      rw [ih (c :: acc)]
      simp [List.filter_cons, hws, List.append_assoc]

theorem splitWsL_flatten (l : List Char) :
    (splitWsL l).flatten = l.filter (fun c => !c.isWhitespace) := by
  simpa using splitWsGo_flatten l []

theorem splitOnFuel_congr (sep : List Char) :
    ∀ (f₁ : Nat) (l : List Char) (f₂ : Nat), l.length ≤ f₁ → l.length ≤ f₂ →
      splitOnFuel sep f₁ l = splitOnFuel sep f₂ l := by
  intro f₁
  induction f₁ with
  | zero =>
    intro l f₂ h₁ _
    have hl : l = [] := List.length_eq_zero.mp (Nat.le_zero.mp h₁)
    subst hl
    cases f₂ <;> rfl
  | succ g ih =>
    intro l f₂ h₁ h₂
    cases l with
    | nil => cases f₂ <;> rfl
    | cons c rest =>
      cases f₂ with
      | zero => simp at h₂
      | succ g₂ =>
        simp only [splitOnFuel]
        by_cases h : sep ≠ [] ∧ sep.isPrefixOf (c :: rest)
        · rw [if_pos h, if_pos h,
            ih (List.drop (sep.length - 1) rest) g₂
              (by simp only [List.length_drop]
                  simp only [List.length_cons] at h₁; omega)
              (by simp only [List.length_drop]
                  simp only [List.length_cons] at h₂; omega)]
        · rw [if_neg h, if_neg h,
            ih rest g₂
              (by simp only [List.length_cons] at h₁; omega)
              (by simp only [List.length_cons] at h₂; omega)]

theorem splitOnL_nil (sep : List Char) : splitOnL sep [] = [[]] := rfl

theorem splitOnL_cons_pos (sep : List Char) (c : Char) (rest : List Char)
    (h : sep ≠ [] ∧ sep.isPrefixOf (c :: rest)) :
    splitOnL sep (c :: rest) =
      [] :: splitOnL sep (List.drop (sep.length - 1) rest) := by
  show splitOnFuel sep (c :: rest).length (c :: rest) = _
  simp only [List.length_cons, splitOnFuel]
  rw [if_pos h]
  congr 1
  exact splitOnFuel_congr sep rest.length (List.drop (sep.length - 1) rest)
    (List.drop (sep.length - 1) rest).length
    (by simp only [List.length_drop]; omega) (le_refl _)

theorem splitOnL_cons_neg (sep : List Char) (c : Char) (rest : List Char)
    (h : ¬(sep ≠ [] ∧ sep.isPrefixOf (c :: rest))) :
    splitOnL sep (c :: rest) =
      match splitOnL sep rest with
      | [] => [[c]]
      | f :: fs => (c :: f) :: fs := by
  show splitOnFuel sep (c :: rest).length (c :: rest) = _
  simp only [List.length_cons, splitOnFuel]
  rw [if_neg h]
  rfl

theorem splitOnL_sep_start (sep y : List Char) (hsep : sep ≠ []) :
    splitOnL sep (sep ++ y) = [] :: splitOnL sep y := by
  cases sep with
  | nil => exact absurd rfl hsep
  | cons s s' =>
    rw [List.cons_append]
    rw [splitOnL_cons_pos (s :: s') s (s' ++ y)
      ⟨by simp, by rw [List.isPrefixOf_iff_prefix]; exact ⟨y, by simp⟩⟩]
    congr 1
    simp only [List.length_cons, Nat.add_sub_cancel]
    rw [List.drop_left]

theorem splitOnL_no_occ (sep : List Char) :
    ∀ l : List Char, (∀ pre post : List Char, l ≠ pre ++ sep ++ post) →
      splitOnL sep l = [l] := by
  intro l
  induction l with
  | nil => intro _; exact splitOnL_nil sep
  | cons c rest ih =>
    intro hno
    have hpre : ¬(sep ≠ [] ∧ sep.isPrefixOf (c :: rest)) := by
      rintro ⟨-, hp⟩
      rw [List.isPrefixOf_iff_prefix] at hp
      rcases hp with ⟨t, ht⟩
      exact hno [] t (by rw [← ht]; simp)
    rw [splitOnL_cons_neg sep c rest hpre]
    rw [ih (fun pre post hmid => hno (c :: pre) post (by rw [hmid]; simp))]

theorem splitOnL_first_at (sep : List Char) (hsep : sep ≠ []) :
    ∀ x y : List Char,
      (∀ pre post : List Char,
        x ++ sep ++ y = pre ++ sep ++ post → x.length ≤ pre.length) →
      splitOnL sep (x ++ sep ++ y) = x :: splitOnL sep y := by
  intro x
  induction x with
  | nil =>
    intro y _
    simpa using splitOnL_sep_start sep y hsep
  | cons a x' ih =>
    intro y hfirst
    have hl : (a :: x') ++ sep ++ y = a :: (x' ++ sep ++ y) := by simp
    have hpre : ¬(sep ≠ [] ∧ sep.isPrefixOf (a :: (x' ++ sep ++ y))) := by
      rintro ⟨-, hp⟩
      rw [List.isPrefixOf_iff_prefix] at hp
      rcases hp with ⟨t, ht⟩
      have hz := hfirst [] t (by rw [hl, ← ht]; simp)
      simp at hz
    rw [hl, splitOnL_cons_neg sep _ _ hpre]
    rw [ih y ?_]
    · intro pre post hdecomp
      have hz := hfirst (a :: pre) post (by rw [hl, hdecomp]; simp)
      simpa using hz

theorem count_joinSep (c : Char) (sep : List Char) :
    ∀ L : List (List Char), (∀ x ∈ L, List.count c x = 0) →
      List.count c (joinSep sep L) = (L.length - 1) * List.count c sep := by
  intro L
  induction L with
  | nil => intro _; simp [joinSep]
  | cons x L' ih =>
    intro hL
    cases L' with
    | nil => simp [joinSep, hL x (by simp)]
    | cons y L'' =>
      have hx := hL x (by simp)
      have hrest := ih (fun z hz => hL z (by simp [hz]))
      simp only [joinSep] at hrest ⊢
      rw [List.count_append, List.count_append, hx, hrest]
      simp only [List.length_cons, Nat.add_sub_cancel]
      ring

theorem sep_joinSep_eq_flatten (sep : List Char) :
    ∀ (xs : List (List Char)) (x : List Char),
      sep ++ joinSep sep (x :: xs) = ((x :: xs).map (fun t => sep ++ t)).flatten := by
  intro xs
  induction xs with
  | nil => intro x; simp [joinSep]
  | cons y rest ih =>
    intro x
    simp only [joinSep, List.map_cons, List.flatten_cons] at *
    rw [← ih y]
    simp [List.append_assoc]

/-! ## Renderer and row parser properties -/

theorem to_colored_string_spec (r : Row) (sep : List Char) (h : r.values ≠ []) :
    r.to_colored_string sep = specRowRender r sep := by
  rcases r with ⟨key, values⟩
  cases values with
  | nil => exact absurd rfl h
  | cons v vs =>
    show key ++ sep ++ joinSep sep ((v :: vs).map Value.pretty)
      = key ++ ((v :: vs).map (fun w => sep ++ w.text)).flatten
    rw [List.append_assoc]
    congr 1
    rw [List.map_cons]
    rw [sep_joinSep_eq_flatten sep (vs.map Value.pretty) v.pretty]
    rw [← List.map_cons, List.map_map]
    rfl

theorem fromLine_eq_none_iff (seg : List Char) :
    Row.fromLine seg = none ↔ (splitWsL seg).length < 2 := by
  unfold Row.fromLine
  cases h : splitWsL seg with
  | nil => simp
  | cons k rest =>
    cases rest with
    | nil => simp
    | cons v vs =>
      simp only [List.length_cons]
      constructor
      · intro hsome; cases hsome
      · intro hlt; omega

theorem fromLine_words (seg k v : List Char) (vs : List (List Char))
    (h : splitWsL seg = k :: v :: vs) :
    Row.fromLine seg = some ⟨k, (v :: vs).map Value.ofText⟩ := by
  unfold Row.fromLine
  rw [h]

theorem splitOnL_ne_nil (sep l : List Char) : splitOnL sep l ≠ [] := by
  cases l with
  | nil => rw [splitOnL_nil]; simp
  | cons c rest =>
    by_cases h : sep ≠ [] ∧ sep.isPrefixOf (c :: rest)
    · rw [splitOnL_cons_pos _ _ _ h]; simp
    · rw [splitOnL_cons_neg _ _ _ h]
      cases splitOnL sep rest <;> simp

theorem splitOnL_single_not_mem (c : Char) :
    ∀ l : List Char, ∀ f ∈ splitOnL [c] l, c ∉ f := by
  intro l
  induction l with
  | nil =>
    intro f hf
    rw [splitOnL_nil] at hf
    rcases List.mem_singleton.mp hf with rfl
    simp
  | cons d rest ih =>
    intro f hf
    by_cases h : [c] ≠ [] ∧ List.isPrefixOf [c] (d :: rest)
    · rw [splitOnL_cons_pos _ _ _ h] at hf
      rcases List.mem_cons.mp hf with rfl | hf'
      · simp
      · exact ih f (by simpa using hf')
    · rw [splitOnL_cons_neg _ _ _ h] at hf
      have hcd : c ≠ d := by
        intro hceq
        exact h ⟨by simp, by rw [hceq]; simp [List.isPrefixOf]⟩
      cases hsplit : splitOnL [c] rest with
      | nil => exact absurd hsplit (splitOnL_ne_nil [c] rest)
      | cons f₀ fs =>
        rw [hsplit] at hf
        rcases List.mem_cons.mp hf with rfl | hf'
        · intro hc
          rcases List.mem_cons.mp hc with rfl | hc'
          · exact hcd rfl
          · exact ih f₀ (by rw [hsplit]; simp) hc'
        · exact ih f (by rw [hsplit]; simp [hf'])

theorem splitWsL_word_chars (seg w : List Char) (hw : w ∈ splitWsL seg) :
    ∀ c ∈ w, c ∈ seg := by
  intro c hc
  have hmem : c ∈ (splitWsL seg).flatten := List.mem_flatten.mpr ⟨w, hw, hc⟩
  rw [splitWsL_flatten] at hmem
  exact List.mem_of_mem_filter hmem

/-! ## Further helpers for the claims -/

theorem first_at_of_not_isPrefixOf (sep s : List Char) (n : Nat)
    (h : ∀ i, i < n → ¬(sep.isPrefixOf (s.drop i) = true)) :
    ∀ pre post : List Char, s = pre ++ sep ++ post → n ≤ pre.length := by
  intro pre post hdec
  by_contra hlt
  rw [Nat.not_le] at hlt
  refine h pre.length hlt ?_
  rw [hdec, List.append_assoc, List.drop_left]
  rw [List.isPrefixOf_iff_prefix]
  exact ⟨post, rfl⟩

theorem handle_line_eq (input : List Char) (m : Bool) :
    handle_line input m =
      match (splitOnL headerNeedle (toLowerL input))[1]? with
      | none => pretty_print input m
      | some value => pretty_print value m := rfl

theorem fromLine_some_inv (seg : List Char) (r : Row) (h : Row.fromLine seg = some r) :
    ∃ (k v : List Char) (vs : List (List Char)),
      splitWsL seg = k :: v :: vs ∧ r = ⟨k, (v :: vs).map Value.ofText⟩ := by
  unfold Row.fromLine at h
  cases hs : splitWsL seg with
  | nil => rw [hs] at h; cases h
  | cons k rest =>
    cases rest with
    | nil => rw [hs] at h; cases h
    | cons v vs =>
      rw [hs] at h
      simp only [Option.some.injEq] at h
      exact ⟨k, v, vs, rfl, h.symm⟩

theorem rows_no_semi (input : List Char) :
    ∀ r ∈ (splitOnL [';'] input).filterMap Row.fromLine,
      ';' ∉ r.key ∧ ∀ v ∈ r.values, ';' ∉ v.text := by
  intro r hr
  rcases List.mem_filterMap.mp hr with ⟨seg, hseg, hsome⟩
  rcases fromLine_some_inv seg r hsome with ⟨k, v, vs, hsplit, rfl⟩
  have hnosemi : ';' ∉ seg := splitOnL_single_not_mem ';' input seg hseg
  have hword : ∀ w ∈ splitWsL seg, ';' ∉ w := by
    intro w hw hcmem
    exact hnosemi (splitWsL_word_chars seg w hw ';' hcmem)
  constructor
  · exact hword k (by rw [hsplit]; simp)
  · intro val hval
    rcases List.mem_map.mp hval with ⟨w, hwmem, rfl⟩
    show ';' ∉ w
    exact hword w (by rw [hsplit]; simp [hwmem])

theorem count_semi_row (r : Row) (sep : List Char)
    (hk : ';' ∉ r.key) (hv : ∀ v ∈ r.values, ';' ∉ v.text)
    (hsep : List.count ';' sep = 0) :
    List.count ';' (r.to_colored_string sep) = 0 := by
  have hj : List.count ';' (joinSep sep (r.values.map Value.pretty)) = 0 := by
    rw [count_joinSep ';' sep (r.values.map Value.pretty) ?_]
    · rw [hsep, Nat.mul_zero]
    · intro x hx
      rcases List.mem_map.mp hx with ⟨v, hvm, rfl⟩
      exact List.count_eq_zero.mpr (hv v hvm)
  unfold Row.to_colored_string
  rw [List.count_append, List.count_append]
  rw [List.count_eq_zero.mpr hk, hsep, hj]

/-! ## The claims

`ValueType.Error` is the source's name for the classification the spec
calls "Malformed". -/

/-- C1: for every token string other than the five fixed keywords, the
classifier returns `Plain` exactly when the string contains, as an unanchored
substring, a match of the host pattern (optional `http://`/`https://` scheme,
one or more word-character groups each followed by a dot, then a final
word-character group), and `Error` ("Malformed") otherwise; in particular a
bare `*` classifies as `Error` while `*.trusted.com` classifies as `Plain`. -/
theorem claim1_classify_plain_iff :
    (∀ s : List Char,
      s ≠ "'self'".data → s ≠ "'none'".data → s ≠ "'unsafe-inline'".data →
      s ≠ "'unsafe-eval'".data → s ≠ "data:".data →
      ((classify s = ValueType.Plain ↔ ContainsHostMatch s) ∧
        (classify s = ValueType.Error ↔ ¬ContainsHostMatch s))) ∧
    classify "*".data = ValueType.Error ∧
    classify "*.trusted.com".data = ValueType.Plain := by
  refine ⟨?_, by decide, by decide⟩
  intro s h1 h2 h3 h4 h5
  unfold classify
  rw [if_neg h1, if_neg h2, if_neg h3, if_neg h4, if_neg h5]
  by_cases hurl : is_url s = true
  · rw [if_pos hurl]
    have hc := (is_url_iff_contains s).mp hurl
    exact ⟨⟨fun _ => hc, fun _ => rfl⟩,
      ⟨fun he => ValueType.noConfusion he, fun hn => absurd hc hn⟩⟩
  · rw [if_neg hurl]
    have hc : ¬ContainsHostMatch s := fun hcc => hurl ((is_url_iff_contains s).mpr hcc)
    exact ⟨⟨fun he => ValueType.noConfusion he, fun hcc => absurd hcc hc⟩,
      ⟨fun _ => hc, fun _ => rfl⟩⟩

/-- Witness for C1: `foo.bar` is not a keyword, contains a host-pattern match,
and classifies as `Plain` by the main theorem. -/
theorem claim1_witness : classify "foo.bar".data = ValueType.Plain :=
  (claim1_classify_plain_iff.1 "foo.bar".data (by decide) (by decide) (by decide)
      (by decide) (by decide)).1.mpr
    ⟨[], "foo.bar".data, [], by decide,
      [], [['f', 'o', 'o']], ['b', 'a', 'r'], by decide, Or.inl rfl,
      by decide,
      fun w hw => by
        rcases List.mem_singleton.mp hw with rfl
        exact ⟨by decide, by decide⟩,
      ⟨by decide, by decide⟩⟩

/-- C2: the classifier returns `Safe` exactly for the case-sensitive exact
matches `'self'` and `'none'`, and `UnSafe` exactly for `'unsafe-inline'`,
`'unsafe-eval'` and `data:`; these exact-match rules take precedence over the
host-pattern test. -/
theorem claim2_keywords (s : List Char) :
    (classify s = ValueType.Safe ↔ s = "'self'".data ∨ s = "'none'".data) ∧
    (classify s = ValueType.UnSafe ↔
      s = "'unsafe-inline'".data ∨ s = "'unsafe-eval'".data ∨ s = "data:".data) := by
  by_cases h1 : s = "'self'".data
  · subst h1; decide
  by_cases h2 : s = "'none'".data
  · subst h2; decide
  by_cases h3 : s = "'unsafe-inline'".data
  · subst h3; decide
  by_cases h4 : s = "'unsafe-eval'".data
  · subst h4; decide
  by_cases h5 : s = "data:".data
  · subst h5; decide
  unfold classify
  rw [if_neg h1, if_neg h2, if_neg h3, if_neg h4, if_neg h5]
  by_cases hurl : is_url s = true
  · rw [if_pos hurl]
    refine ⟨⟨fun he => ValueType.noConfusion he, ?_⟩,
            ⟨fun he => ValueType.noConfusion he, ?_⟩⟩
    · rintro (rfl | rfl)
      · exact absurd rfl h1
      · exact absurd rfl h2
    · rintro (rfl | rfl | rfl)
      · exact absurd rfl h3
      · exact absurd rfl h4
      · exact absurd rfl h5
  · rw [if_neg hurl]
    refine ⟨⟨fun he => ValueType.noConfusion he, ?_⟩,
            ⟨fun he => ValueType.noConfusion he, ?_⟩⟩
    · rintro (rfl | rfl)
      · exact absurd rfl h1
      · exact absurd rfl h2
    · rintro (rfl | rfl | rfl)
      · exact absurd rfl h3
      · exact absurd rfl h4
      · exact absurd rfl h5

/-- C8: the classifier is total: every string (the embedding is a total
function, so it never fails) is assigned one of the four classifications,
and as a function it assigns exactly one. -/
theorem claim8_classify_total (s : List Char) :
    (classify s = ValueType.Safe ∨ classify s = ValueType.UnSafe ∨
      classify s = ValueType.Plain ∨ classify s = ValueType.Error) ∧
    ∀ t u : ValueType, classify s = t → classify s = u → t = u := by
  constructor
  · unfold classify
    split_ifs <;> simp
  · intro t u ht hu
    rw [← ht, ← hu]

/-- C7: end-to-end with styling disabled, the three-directive example line
renders with rows joined by semicolon-newline and the empty trailing segment
dropped. -/
theorem claim7_end_to_end :
    handle_line "default-src 'self'; img-src https://*; child-src 'none';".data false
      = "default-src 'self';\nimg-src https://*;\nchild-src 'none'".data := by
  decide

/-- C3 counterexample: the claim says the parsed and rendered text is taken
from the original line with its case preserved; on a mixed-case line the
program renders the lower-cased text instead. -/
theorem claim3_counterexample :
    handle_line "Content-Security-Policy: Default-Src 'SELF'".data false
        = "default-src 'self'".data ∧
      "default-src 'self'".data ≠ "Default-Src 'SELF'".data :=
  ⟨by decide, by decide⟩

/-- C3 amended: when the header prefix is found, the text that is parsed and
rendered is taken from the LOWER-CASED copy of the line, so the output
coincides with that of the fully lower-cased line and case is not
preserved. -/
theorem claim3_amended (line : List Char) (m : Bool)
    (h : ∃ v, (splitOnL headerNeedle (toLowerL line))[1]? = some v) :
    handle_line line m = handle_line (toLowerL line) m := by
  rcases h with ⟨v, hv⟩
  rw [handle_line_eq, handle_line_eq, toLowerL_idem, hv]

/-- Witness for C3 at a concrete mixed-case line. -/
theorem claim3_witness :
    handle_line "Content-Security-Policy: A 'SELF'".data false
      = handle_line (toLowerL "Content-Security-Policy: A 'SELF'".data) false :=
  claim3_amended "Content-Security-Policy: A 'SELF'".data false
    ⟨" a 'self'".data, by decide⟩

/-- C4 counterexample: with two occurrences of the prefix, the program
processes only the text between the first and second occurrences, not
everything after the first occurrence as the claim states (the middle
conjunct computes what rendering everything after the first occurrence
would produce). -/
theorem claim4_counterexample :
    handle_line "content-security-policy: a b content-security-policy: c d".data false
        = "a b".data ∧
      pretty_print " a b content-security-policy: c d".data false
        = "a b content-security-policy: c d".data ∧
      "a b".data ≠ "a b content-security-policy: c d".data :=
  ⟨by decide, by decide, by decide⟩

/-- C4 amended: if the lower-cased line contains the prefix, the text to
process is the portion of the LOWER-CASED line strictly between the end of
the first occurrence and the start of the second occurrence (to the end of
the line when there is no second occurrence); if the prefix is absent, the
entire original line is processed. -/
theorem claim4_amended :
    (∀ (line x y z : List Char) (m : Bool),
      toLowerL line = x ++ headerNeedle ++ (y ++ headerNeedle ++ z) →
      (∀ pre post : List Char,
        x ++ headerNeedle ++ (y ++ headerNeedle ++ z) = pre ++ headerNeedle ++ post →
        x.length ≤ pre.length) →
      (∀ pre post : List Char,
        y ++ headerNeedle ++ z = pre ++ headerNeedle ++ post →
        y.length ≤ pre.length) →
      handle_line line m = pretty_print y m) ∧
    (∀ (line x y : List Char) (m : Bool),
      toLowerL line = x ++ headerNeedle ++ y →
      (∀ pre post : List Char,
        x ++ headerNeedle ++ y = pre ++ headerNeedle ++ post →
        x.length ≤ pre.length) →
      (∀ pre post : List Char, y ≠ pre ++ headerNeedle ++ post) →
      handle_line line m = pretty_print y m) ∧
    (∀ (line : List Char) (m : Bool),
      (∀ pre post : List Char, toLowerL line ≠ pre ++ headerNeedle ++ post) →
      handle_line line m = pretty_print line m) := by
  have hneedle : headerNeedle ≠ [] := by decide
  refine ⟨?_, ?_, ?_⟩
  · intro line x y z m hdec hfx hfy
    rw [handle_line_eq, hdec]
    rw [splitOnL_first_at headerNeedle hneedle x (y ++ headerNeedle ++ z) hfx]
    rw [splitOnL_first_at headerNeedle hneedle y z hfy]
    simp
  · intro line x y m hdec hfx hnoy
    rw [handle_line_eq, hdec]
    rw [splitOnL_first_at headerNeedle hneedle x y hfx]
    rw [splitOnL_no_occ headerNeedle y hnoy]
    simp
  · intro line m hno
    rw [handle_line_eq, splitOnL_no_occ headerNeedle (toLowerL line) hno]
    simp

/-- Witness for C4 at a concrete line with two prefix occurrences. -/
theorem claim4_witness :
    handle_line "content-security-policy: a b content-security-policy: c d".data false
      = pretty_print " a b ".data false :=
  claim4_amended.1 "content-security-policy: a b content-security-policy: c d".data
    [] " a b ".data " c d".data false (by decide)
    (fun pre post _ => Nat.zero_le pre.length)
    (first_at_of_not_isPrefixOf headerNeedle
      (" a b ".data ++ headerNeedle ++ " c d".data) 5 (by decide))

/-- C5: for rows of the data model (at least one value each), the renderer
joins rendered rows with semicolon-newline independent of the multiline flag,
while within a row the separator before each value is a single space
(multiline off) or newline plus one tab (multiline on); the empty row
sequence renders as the empty string. -/
theorem claim5_renderer (rows : List Row) (m : Bool)
    (h : ∀ r ∈ rows, r.values ≠ []) :
    renderRows rows (if m then "\n\t".data else " ".data) = specRender rows m ∧
    renderRows ([] : List Row) (if m then "\n\t".data else " ".data) = [] := by
  refine ⟨?_, rfl⟩
  unfold renderRows specRender
  congr 1
  exact List.map_congr_left (fun r hr => to_colored_string_spec r _ (h r hr))

/-- Witness for C5 at a concrete one-row list. -/
theorem claim5_witness :
    renderRows [Row.mk "img-src".data [Value.ofText "b.com".data]]
        (if false then "\n\t".data else " ".data)
      = specRender [Row.mk "img-src".data [Value.ofText "b.com".data]] false :=
  (claim5_renderer [Row.mk "img-src".data [Value.ofText "b.com".data]] false
    (by decide)).1

/-- C6: a segment is split on runs of whitespace into non-empty,
whitespace-free words; fewer than two words produce no row (silently
dropped); otherwise the first word becomes the directive name (never
classified) and each remaining word is classified, preserving the words'
text and order. -/
theorem claim6_segment_words (seg : List Char) :
    ((splitWsL seg).length < 2 → Row.fromLine seg = none) ∧
    (∀ (k v : List Char) (vs : List (List Char)), splitWsL seg = k :: v :: vs →
      ∃ r, Row.fromLine seg = some r ∧ r.key = k ∧
        r.values.map Value.text = v :: vs ∧
        r.values.map Value.value_type = (v :: vs).map classify) ∧
    (∀ w ∈ splitWsL seg, w ≠ [] ∧ ∀ c ∈ w, c.isWhitespace = false) := by
  refine ⟨fun hlt => (fromLine_eq_none_iff seg).mpr hlt, ?_, splitWsL_words seg⟩
  intro k v vs h
  refine ⟨⟨k, (v :: vs).map Value.ofText⟩, fromLine_words seg k v vs h, rfl, ?_, ?_⟩
  · rw [List.map_map]
    exact List.map_id (v :: vs)
  · rw [List.map_map]
    rfl

/-- Witness for C6 at a concrete two-value segment. -/
theorem claim6_witness :
    ∃ r, Row.fromLine "img-src a b".data = some r ∧ r.key = "img-src".data ∧
      r.values.map Value.text = ["a".data, "b".data] ∧
      r.values.map Value.value_type = (["a".data, "b".data]).map classify :=
  (claim6_segment_words "img-src a b".data).2.1 "img-src".data "a".data ["b".data]
    (by decide)

/-- C9: line processing is pure and deterministic: each line's output depends
only on that line and the flag, independent of the surrounding lines, and two
runs on the same input produce the same output. -/
theorem claim9_deterministic :
    (∀ (pre post : List (List Char)) (line : List Char) (m : Bool),
      main_loop (pre ++ line :: post) m
        = main_loop pre m ++ handle_line line m :: main_loop post m) ∧
    (∀ (line : List Char) (m : Bool) (out1 out2 : List Char),
      out1 = handle_line line m → out2 = handle_line line m → out1 = out2) := by
  constructor
  · intro pre post line m
    unfold main_loop
    rw [List.map_append, List.map_cons]
  · intro line m out1 out2 h1 h2
    rw [h1, h2]

/-- Witness for C9: two runs at a concrete line agree. -/
theorem claim9_witness :
    handle_line "k v".data false = handle_line "k v".data false :=
  claim9_deterministic.2 "k v".data false
    (handle_line "k v".data false) (handle_line "k v".data false) rfl rfl

/-- C10: no directive name or token text ever contains a semicolon (splitting
on semicolons happens first), so every semicolon in the output of line
processing was inserted by the semicolon-newline row joiner: the output has
exactly one semicolon per row join. -/
theorem claim10_semicolons (input : List Char) (m : Bool) :
    (∀ r ∈ (splitOnL [';'] input).filterMap Row.fromLine,
      ';' ∉ r.key ∧ ∀ v ∈ r.values, ';' ∉ v.text) ∧
    List.count ';' (pretty_print input m)
      = ((splitOnL [';'] input).filterMap Row.fromLine).length - 1 := by
  refine ⟨rows_no_semi input, ?_⟩
  have hsepcount : List.count ';' (if m then "\n\t".data else " ".data) = 0 := by
    cases m <;> decide
  simp only [pretty_print, renderRows]
  rw [count_joinSep ';' ";\n".data
    (((splitOnL [';'] input).filterMap Row.fromLine).map
      (fun r => r.to_colored_string (if m then "\n\t".data else " ".data))) ?_]
  · rw [List.length_map]
    rw [show List.count ';' ";\n".data = 1 from by decide, Nat.mul_one]
  · intro x hx
    rcases List.mem_map.mp hx with ⟨r, hrm, rfl⟩
    exact count_semi_row r _ (rows_no_semi input r hrm).1
      (rows_no_semi input r hrm).2 hsepcount

/-- Witness for C10: the row parsed from a concrete input is
semicolon-free. -/
theorem claim10_witness :
    ';' ∉ (Row.mk "a".data (["b".data].map Value.ofText)).key ∧
      ∀ v ∈ (Row.mk "a".data (["b".data].map Value.ofText)).values,
        ';' ∉ v.text :=
  (claim10_semicolons "a b; c d".data false).1
    (Row.mk "a".data (["b".data].map Value.ofText)) (by decide)

/-- Witness for C8: uniqueness applied at a concrete input. -/
theorem claim8_witness : ValueType.Error = ValueType.Error :=
  (claim8_classify_total "*".data).2 ValueType.Error ValueType.Error
    (by decide) (by decide)
